import Mathlib

/-!
Verification of the `str.db` sorted-collection store.

This file is a shallow embedding of the repository's two modules:

* `collection.ts` (the sorted collection engine: `Collection` with
  `defaultComparator`, `searchIndex`, `insert`, `update`, `remove`, `find`,
  `removeAll`, and iteration over the backing array), and
* `src/libs/database.ts` (`connect`: reading/parsing the file, the default
  `init` fallback, and the returned collection factory with its
  `data[name] || (data[name] = [])` array lookup).

Modelling conventions:

* A JS record is modelled as an association list `List (String × Int)`: field
  names mapped to values.  Field values are restricted to integers, which is
  the record shape exercised throughout the spec (`{id: 1}` …); the default
  comparator in the source applies generic `<` / `>` to the key-field values,
  which on numbers is exactly integer comparison, and any comparison involving
  `undefined` (an absent field) is `false` in JS, hence `jslt none _ = false`.
* `Object.assign(target, el)` is `assign`: every own field of `el` is written
  onto `target` in order; an existing field keeps its position, a new field is
  appended (JS own-property order).
* Fallible code returns `Except String α`; the string is the `TypeError`
  message thrown by the source.  An `async` method of the source never throws
  synchronously: its body's outcome (normal or thrown) is delivered through
  the returned promise.  `SyncResult` distinguishes a synchronous throw from a
  normally returned value, and the `…Call` wrappers below give the caller's
  view of each method (`find` is synchronous, `update`/`remove` are `async`).
* The `while (left <= right)` loop of `searchIndex` is translated with an
  explicit fuel argument that decreases by one per iteration; the interval
  `right - left + 1` shrinks by at least one per iteration, so the fuel
  `length + 1` supplied at the single call site can never run out (this is
  proved, not assumed, in `searchGo_spec` below).
* `Array.prototype.sort(comparator)` is (per ECMAScript 2019+) a stable sort
  driven by the comparator.  For a consistent comparator every stable sort
  yields the same sequence, so it is modelled by a stable insertion sort
  `jsSort` (an element is inserted after every element comparing `≤ 0` to it).
* The constructor of `Collection` runs
  `this.elements = options.elements.sort(this.comparator)` *before*
  `this.primaryKey = options.primaryKey`.  Class-field initializers
  (`defaultComparator = (a, b) => …`) run before the constructor body, so at
  the time of that sort `this.defaultComparator` exists but `this.primaryKey`
  is still `undefined` and `a[this.primaryKey]` reads an absent property.
  `Collection.make` therefore sorts with `defaultComparator none` (key lookup
  yields `none`) while every later operation uses
  `defaultComparator (some primaryKey)`.  A supplied custom comparator is
  unaffected.
* `removeAll` iterates `for (const el of this)`, i.e. the generator over the
  *live* backing array, while each `this.remove(el)` splices that same array;
  the array iterator keeps a numeric cursor checked against the current
  length.  `removeAllGo` reproduces exactly that cursor semantics.
-/

namespace StrDb

/-- A JS record: own fields in property order, integer-valued. -/
abbrev Record := List (String × Int)

/-- A comparator as in `collection.ts`: `(first, second) => number`. -/
abbrev Cmp := Record → Record → Int

/-- `Reflect.has(el, key)`: the record carries the field. -/
def hasField (el : Record) (key : String) : Bool :=
  (el.lookup key).isSome

/-- Write one field: an existing field is updated in place (keeping its
position in property order), a new field is appended — JS property
assignment semantics. -/
def setKV {β : Type} (l : List (String × β)) (key : String) (v : β) :
    List (String × β) :=
  if l.any (fun p => p.1 == key) then
    l.map (fun p => if p.1 = key then (key, v) else p)
  else l ++ [(key, v)]

/-- `Object.assign(target, source)`: source fields written onto target in
source property order. -/
def assign (target source : Record) : Record :=
  source.foldl (fun acc p => setKV acc p.1 p.2) target

/-- A record with each field name occurring at most once — every actual JS
object is of this shape; association lists with a duplicated field name do
not correspond to any JS object. -/
def WfRecord (r : Record) : Prop :=
  (r.map Prod.fst).Nodup

/-- JS `<` restricted to the values occurring here: two numbers compare
numerically; any comparison involving `undefined` (an absent field) is
`false`. -/
def jslt : Option Int → Option Int → Bool
  | some a, some b => a < b
  | _, _ => false

/-- Read `r[key]` where `key` is `this.primaryKey`; `none` stands for the
state before the constructor assigns `primaryKey`, when `this.primaryKey` is
`undefined` and `r[undefined]` reads an absent property. -/
def getPK (r : Record) (pk : Option String) : Option Int :=
  match pk with
  | some key => r.lookup key
  | none => none

/-- `defaultComparator` of `collection.ts`:
`a[pk] < b[pk] → -1`, `a[pk] > b[pk] → 1`, else `0` (JS `a > b` on numbers is
`b < a`). -/
def defaultComparator (pk : Option String) (a b : Record) : Int :=
  if jslt (getPK a pk) (getPK b pk) then -1
  else if jslt (getPK b pk) (getPK a pk) then 1
  else 0

/-- Stable insertion step: `x` goes after every element comparing `≤ 0`
against it. -/
def insertSorted (c : Cmp) (x : Record) : List Record → List Record
  | [] => [x]
  | y :: ys => if c y x ≤ 0 then y :: insertSorted c x ys else x :: y :: ys

/-- `Array.prototype.sort(c)`: stable comparator sort (see header). -/
def jsSort (c : Cmp) (l : List Record) : List Record :=
  l.foldl (fun acc x => insertSorted c x acc) []

/-- In-memory state of a `Collection` (the `name` and the injected `save`
routine carry no collection-local state; saving is counted by the operations
below instead). -/
structure Collection where
  comparator : Cmp
  primaryKey : String
  elements : List Record

/-- The constructor:
`comparator = options.comparator || this.defaultComparator`, then
`elements = options.elements.sort(this.comparator)`, then
`primaryKey = options.primaryKey`.  Because `primaryKey` is assigned *after*
the sort, a defaulted comparator sorts with `defaultComparator none`
(constant `0`) but is `defaultComparator (some primaryKey)` for every later
operation. -/
def Collection.make (comparator : Option Cmp) (elements : List Record)
    (primaryKey : String) : Collection :=
  { comparator := comparator.getD (defaultComparator (some primaryKey))
    primaryKey := primaryKey
    elements := jsSort (comparator.getD (defaultComparator none)) elements }

/-- The `while (left <= right)` body of `searchIndex`; one fuel unit per
iteration, `mid = Math.floor((left + right) / 2)` (the indices in the live
range are nonnegative, where `Int` division is floor division). -/
def searchGo (c : Cmp) (l : List Record) (el : Record) :
    Nat → Int → Int → Int × Bool
  | 0, left, _right => (left, false)
  | Nat.succ fuel, left, right =>
    if left ≤ right then
      if c el (l.getD ((left + right) / 2).toNat []) < 0 then
        searchGo c l el fuel left ((left + right) / 2 - 1)
      else if c el (l.getD ((left + right) / 2).toNat []) > 0 then
        searchGo c l el fuel ((left + right) / 2 + 1) right
      else ((left + right) / 2, true)
    else (left, false)

/-- `searchIndex(el)`: throws a `TypeError` when the primary key is absent,
otherwise binary search over the backing array returning
`[index, found]`. -/
def Collection.searchIndex (col : Collection) (el : Record) :
    Except String (Int × Bool) :=
  if hasField el col.primaryKey then
    Except.ok (searchGo col.comparator col.elements el
      (col.elements.length + 1) 0 ((col.elements.length : Int) - 1))
  else Except.error "cannot find the index without the primary key"

/-- `Array.prototype.splice(i, 0, x)`. -/
def insertAt (l : List Record) (i : Nat) (x : Record) : List Record :=
  l.take i ++ x :: l.drop i

/-- Result of a mutating method: the new state, the boolean the promise
resolves with, and the number of `startSaving` calls it performed. -/
abbrev MutResult := Collection × Bool × Nat

/-- `insert(el)` (body of the `async` method): locate; if found resolve
`false` without mutation, else splice in at the computed index, save, and
resolve `true`. -/
def Collection.insert (col : Collection) (el : Record) :
    Except String MutResult :=
  match col.searchIndex el with
  | Except.error m => Except.error m
  | Except.ok (index, found) =>
    if found then Except.ok (col, false, 0)
    else Except.ok
      ({ col with elements := insertAt col.elements index.toNat el }, true, 1)

/-- `update(el)` (body of the `async` method): explicit primary-key check,
locate, and on success `Object.assign` into the found element followed by a
save. -/
def Collection.update (col : Collection) (el : Record) :
    Except String MutResult :=
  if hasField el col.primaryKey then
    match col.searchIndex el with
    | Except.error m => Except.error m
    | Except.ok (index, found) =>
      if found then
        Except.ok ({ col with
          elements :=
            col.elements.set index.toNat
              (assign (col.elements.getD index.toNat []) el) }, true, 1)
      else Except.ok (col, false, 0)
  else Except.error "cannot update an element without the primary key"

/-- `remove(el)` (body of the `async` method): locate and splice out one
element, then save. -/
def Collection.remove (col : Collection) (el : Record) :
    Except String MutResult :=
  match col.searchIndex el with
  | Except.error m => Except.error m
  | Except.ok (index, found) =>
    if found then Except.ok
      ({ col with elements := col.elements.eraseIdx index.toNat }, true, 1)
    else Except.ok (col, false, 0)

/-- `find(el)`: synchronous read-only locate. -/
def Collection.find (col : Collection) (el : Record) :
    Except String (Option Record) :=
  match col.searchIndex el with
  | Except.error m => Except.error m
  | Except.ok (index, found) =>
    if found then Except.ok (some (col.elements.getD index.toNat []))
    else Except.ok none

/-- The `for (const el of this)` loop of `removeAll`: the array iterator
holds a cursor `i` into the *live* array and stops once `i` reaches the
current length; each visited element is counted and `this.remove(el)` is
fired without awaiting (a rejected promise from `remove` is ignored, and its
synchronous prefix — the splice — has already run).  One fuel unit per
yielded element; the cursor strictly increases and the length never grows,
so `length + 1` fuel at the call site suffices. -/
def removeAllGo (cond : Option (Record → Bool)) :
    Nat → Collection → Nat → Nat → Nat → Collection × Nat × Nat
  | 0, col, _i, count, saves => (col, count, saves)
  | Nat.succ fuel, col, i, count, saves =>
    if i < col.elements.length then
      match cond with
      | none =>
        match col.remove (col.elements.getD i []) with
        | Except.error _ => removeAllGo cond fuel col (i + 1) (count + 1) saves
        | Except.ok (col', _, s) =>
          removeAllGo cond fuel col' (i + 1) (count + 1) (saves + s)
      | some c =>
        if c (col.elements.getD i []) then
          match col.remove (col.elements.getD i []) with
          | Except.error _ =>
            removeAllGo cond fuel col (i + 1) (count + 1) saves
          | Except.ok (col', _, s) =>
            removeAllGo cond fuel col' (i + 1) (count + 1) (saves + s)
        else removeAllGo cond fuel col (i + 1) count saves
    else (col, count, saves)

/-- `removeAll(cond?)`: returns the new state, the returned count, and the
number of saves triggered. -/
def Collection.removeAll (col : Collection) (cond : Option (Record → Bool)) :
    Collection × Nat × Nat :=
  removeAllGo cond (col.elements.length + 1) col 0 0 0

/-- Outcome of *calling* a method, as seen synchronously by the caller:
either a synchronous throw or a returned value. -/
inductive SyncResult (α : Type) where
  | thrown (msg : String)
  | value (v : α)

/-- Calling `find` (not `async`): a thrown `TypeError` reaches the caller
synchronously. -/
def Collection.findCall (col : Collection) (el : Record) :
    SyncResult (Option Record) :=
  match col.find el with
  | Except.error m => SyncResult.thrown m
  | Except.ok v => SyncResult.value v

/-- Calling `update` (`async`): the caller synchronously receives the
promise; a `TypeError` thrown in the body rejects that promise instead of
propagating synchronously. -/
def Collection.updateCall (col : Collection) (el : Record) :
    SyncResult (Except String MutResult) :=
  SyncResult.value (col.update el)

/-- Calling `remove` (`async`): same delivery as `update`. -/
def Collection.removeCall (col : Collection) (el : Record) :
    SyncResult (Except String MutResult) :=
  SyncResult.value (col.remove el)

/-- One collection-mutating call, for quantifying over operation
sequences. -/
inductive Op where
  | ins (r : Record)
  | upd (r : Record)
  | rem (r : Record)
  | remAll (cond : Option (Record → Bool))

/-- Run one operation; a rejected call leaves the state unchanged (the
source throws before any mutation). -/
def applyOp (col : Collection) : Op → Collection
  | Op.ins r =>
    match col.insert r with
    | Except.ok (c, _, _) => c
    | Except.error _ => col
  | Op.upd r =>
    match col.update r with
    | Except.ok (c, _, _) => c
    | Except.error _ => col
  | Op.rem r =>
    match col.remove r with
    | Except.ok (c, _, _) => c
    | Except.error _ => col
  | Op.remAll cond => (col.removeAll cond).1

/-- Run a sequence of operations left to right. -/
def applyOps (col : Collection) (ops : List Op) : Collection :=
  ops.foldl applyOp col

/-- An operation whose record argument is a JS object (no duplicated field
name); only `update` merges its argument into stored state, so only it needs
the restriction. -/
def OpWf : Op → Prop
  | Op.upd r => WfRecord r
  | _ => True

/-- A collection state using the post-construction default comparator over
key field `pk` — the normal form of every default-comparator collection. -/
abbrev mkCol (pk : String) (l : List Record) : Collection :=
  { comparator := defaultComparator (some pk)
    primaryKey := pk
    elements := l }

/-- The key-field value of a stored record (`0` only as the default of an
absent key; the invariants below always supply presence). -/
def keyD (pk : String) (r : Record) : Int :=
  (r.lookup pk).getD 0

/-- Every stored record carries the key field. -/
def Keyed (pk : String) (l : List Record) : Prop :=
  ∀ r ∈ l, (r.lookup pk).isSome = true

/-- The backing sequence is sorted by key-field value. -/
def KeysSorted (pk : String) (l : List Record) : Prop :=
  l.Pairwise (fun a b => keyD pk a ≤ keyD pk b)

/-- The standing invariant of a default-comparator collection. -/
def SortInv (pk : String) (l : List Record) : Prop :=
  Keyed pk l ∧ KeysSorted pk l

/-- The effect on the tracked record of one intervening operation in the
insert-then-find round trip: only updates addressed to key `k` merge. -/
def roundMerge (pk : String) (k : Int) (acc : Record) : Op → Record
  | Op.upd e => if e.lookup pk = some k then assign acc e else acc
  | _ => acc

/-- Admissible intervening operations for the round-trip claim: inserts of
anything, well-formed updates, removes not addressed to `k` (and no
`removeAll`, the claim's "no intervening remove of k"). -/
def RoundOk (pk : String) (k : Int) : Op → Prop
  | Op.ins _ => True
  | Op.upd e => WfRecord e
  | Op.rem e => ∀ k', e.lookup pk = some k' → k' ≠ k
  | Op.remAll _ => False

/-- Invariant carried through the insert-then-find round trip: the standing
invariant holds and exactly one stored record has key `k` — the filter of the
backing sequence on key `k` is precisely `[acc]`, the tracked record. -/
def RoundInv (pk : String) (k : Int) (acc : Record) (l : List Record) : Prop :=
  SortInv pk l ∧ l.filter (fun e => keyD pk e == k) = [acc]

/-- JSON values, as produced by `JSON.parse`. -/
inductive JSON where
  | null
  | bool (b : Bool)
  | num (n : Int)
  | str (s : String)
  | arr (elements : List JSON)
  | obj (fields : List (String × JSON))

/-- JS truthiness of a parsed JSON value (`0`, `""`, `false`, `null` are
falsy; arrays and objects are truthy). -/
def JSON.truthy : JSON → Bool
  | JSON.null => false
  | JSON.bool b => b
  | JSON.num n => n != 0
  | JSON.str s => s != ""
  | JSON.arr _ => true
  | JSON.obj _ => true

/-- `Array.isArray`. -/
def JSON.isArr : JSON → Bool
  | JSON.arr _ => true
  | _ => false

/-- The root object: collection names mapped to stored values. -/
abbrev RootData := List (String × JSON)

/-- `connect`'s root-store setup:
`try { data = JSON.parse(databaseFile.read()) } catch { data = init }`.
A throwing `read()` (absent file) lands in the same `catch`.  `parse` stands
for the `JSON.parse` built-in. -/
def connectData (readResult : Except String String)
    (parse : String → Except String JSON) (init : RootData) : JSON :=
  match readResult with
  | Except.error _ => JSON.obj init
  | Except.ok s =>
    match parse s with
    | Except.ok v => v
    | Except.error _ => JSON.obj init

/-- The factory body of `connect`:
`const elements = data[name] || (data[name] = []);`
`if (!Array.isArray(elements)) throw new TypeError(…)` —
a *falsy* stored value takes the `||` branch and is overwritten by a fresh
empty array; only a truthy non-array reaches the throw.  (Own properties
only; prototype-chain lookups of `data[name]` are outside this model.) -/
def getOrCreateArray (data : RootData) (name : String) :
    Except String (RootData × List JSON) :=
  match data.lookup name with
  | some v =>
    if v.truthy then
      match v with
      | JSON.arr xs => Except.ok (data, xs)
      | _ => Except.error
          ("Property " ++ name ++ " in the database is not an array.")
    else Except.ok (setKV data name (JSON.arr []), [])
  | none => Except.ok (setKV data name (JSON.arr []), [])

/-- The root store restricted to record arrays, for the shared-backing-array
scenario: `data[name]` holds the one array aliased by every collection
instance of that `name`, so mutations through any instance are written back
here. -/
structure DBState where
  data : List (String × List Record)

/-- A collection instance returned by the factory: it captures `name`,
`primaryKey` and the (optional) custom comparator; its backing array is
`data[name]` of the shared root store. -/
structure DBHandle where
  name : String
  primaryKey : String
  comparator : Option Cmp

/-- `data[name] || (data[name] = [])` on the record-array store (an existing
array — even an empty one — is truthy and returned as is; an absent name gets
a fresh empty array stored). -/
def DBState.getOrCreate (st : DBState) (name : String) :
    DBState × List Record :=
  match st.data.lookup name with
  | some xs => (st, xs)
  | none => (⟨setKV st.data name []⟩, [])

/-- One factory call: fetch-or-create the shared array, then run the
`Collection` constructor on it — in particular the constructor's in-place
`sort` (with the not-yet-assigned `primaryKey`, see `Collection.make`)
mutates the shared array, hence the write-back. -/
def dbCreateCollection (st : DBState) (name primaryKey : String)
    (comparator : Option Cmp) : DBState × DBHandle :=
  match st.getOrCreate name with
  | (st1, elements) =>
    (⟨setKV st1.data name
        (jsSort (comparator.getD (defaultComparator none)) elements)⟩,
      ⟨name, primaryKey, comparator⟩)

/-- The collection object an instance sees: its methods read the shared
array `data[name]`. -/
def DBHandle.view (h : DBHandle) (st : DBState) : Collection :=
  { comparator := h.comparator.getD (defaultComparator (some h.primaryKey))
    primaryKey := h.primaryKey
    elements := (st.data.lookup h.name).getD [] }

/-- `insert` through an instance: the splice mutates the shared array. -/
def dbInsert (st : DBState) (h : DBHandle) (el : Record) :
    Except String (DBState × Bool) :=
  match (h.view st).insert el with
  | Except.error m => Except.error m
  | Except.ok (col, inserted, _) =>
    Except.ok (⟨setKV st.data h.name col.elements⟩, inserted)

/-- `find` through an instance: reads the shared array. -/
def dbFind (st : DBState) (h : DBHandle) (el : Record) :
    Except String (Option Record) :=
  (h.view st).find el

/-! ### Basic lemmas: lookups, assignment, comparator and sort -/

theorem lookup_cons {β : Type} (a k : String) (b : β) (es : List (String × β)) :
    List.lookup a ((k, b) :: es) = if a = k then some b else List.lookup a es := by
  simp only [List.lookup]
  by_cases h : a = k
  · rw [if_pos h, beq_iff_eq.mpr h]
  · rw [if_neg h, beq_eq_false_iff_ne.mpr h]

theorem lookup_mapset_self {β : Type} {l : List (String × β)} {k : String} {v : β}
    (h : l.any (fun p => p.1 == k) = true) :
    (l.map (fun p => if p.1 = k then (k, v) else p)).lookup k = some v := by
  induction l with
  | nil => simp at h
  | cons p ps ih =>
    obtain ⟨q, w⟩ := p
    by_cases hq : q = k
    · subst hq
      rw [List.map_cons]
      simp [lookup_cons]
    · rw [List.any_cons] at h
      have hq' : ((q, w).1 == k) = false := beq_eq_false_iff_ne.mpr hq
      rw [hq', Bool.false_or] at h
      rw [List.map_cons]
      simp only [if_neg hq]
      rw [lookup_cons, if_neg (fun he => hq he.symm)]
      exact ih h

theorem lookup_mapset_ne {β : Type} (l : List (String × β)) {k k' : String} (v : β)
    (hne : k' ≠ k) :
    (l.map (fun p => if p.1 = k then (k, v) else p)).lookup k' = l.lookup k' := by
  induction l with
  | nil => rfl
  | cons p ps ih =>
    obtain ⟨q, w⟩ := p
    rw [List.map_cons]
    by_cases hq : q = k
    · simp only [hq, if_pos rfl]
      rw [lookup_cons, lookup_cons, if_neg hne, if_neg (hq ▸ hne), ih]
    · simp only [if_neg hq]
      rw [lookup_cons, lookup_cons]
      by_cases hk' : k' = q
      · rw [if_pos hk', if_pos hk']
      · rw [if_neg hk', if_neg hk', ih]

theorem lookup_append_of_ne_single {β : Type} (l : List (String × β))
    {k k' : String} (v : β) (hne : k' ≠ k) :
    (l ++ [(k, v)]).lookup k' = l.lookup k' := by
  induction l with
  | nil => show List.lookup k' [(k, v)] = none
           rw [lookup_cons, if_neg hne]; rfl
  | cons p ps ih =>
    obtain ⟨q, w⟩ := p
    rw [List.cons_append, lookup_cons, lookup_cons]
    by_cases hk' : k' = q
    · rw [if_pos hk', if_pos hk']
    · rw [if_neg hk', if_neg hk', ih]

theorem lookup_none_of_not_any {β : Type} {l : List (String × β)} {k : String}
    (h : l.any (fun p => p.1 == k) = false) : l.lookup k = none := by
  induction l with
  | nil => rfl
  | cons p ps ih =>
    obtain ⟨q, w⟩ := p
    rw [List.any_cons, Bool.or_eq_false_iff] at h
    rw [lookup_cons, if_neg (fun he => (beq_eq_false_iff_ne.mp h.1) he.symm)]
    exact ih h.2

theorem lookup_append_left_none {β : Type} {l : List (String × β)} (m : List (String × β))
    {k : String} (h : l.lookup k = none) : (l ++ m).lookup k = m.lookup k := by
  induction l with
  | nil => rfl
  | cons p ps ih =>
    obtain ⟨q, w⟩ := p
    rw [lookup_cons] at h
    rw [List.cons_append, lookup_cons]
    by_cases hk : k = q
    · rw [if_pos hk] at h; exact absurd h (by simp)
    · rw [if_neg hk] at h
      rw [if_neg hk]
      exact ih h

theorem lookup_setKV_self {β : Type} (l : List (String × β)) (k : String) (v : β) :
    (setKV l k v).lookup k = some v := by
  unfold setKV
  cases h : l.any (fun p => p.1 == k)
  · simp only [Bool.false_eq_true, if_false]
    rw [lookup_append_left_none _ (lookup_none_of_not_any h)]
    simp [lookup_cons]
  · simp only [if_true]
    exact lookup_mapset_self h

theorem lookup_setKV_ne {β : Type} (l : List (String × β)) {k k' : String} (v : β)
    (hne : k' ≠ k) : (setKV l k v).lookup k' = l.lookup k' := by
  unfold setKV
  cases h : l.any (fun p => p.1 == k)
  · simp only [Bool.false_eq_true, if_false]
    exact lookup_append_of_ne_single l v hne
  · simp only [if_true]
    exact lookup_mapset_ne l v hne

theorem lookup_eq_none_of_not_mem {β : Type} {l : List (String × β)} {k : String}
    (h : k ∉ l.map Prod.fst) : l.lookup k = none := by
  induction l with
  | nil => rfl
  | cons p ps ih =>
    obtain ⟨q, w⟩ := p
    simp only [List.map_cons, List.mem_cons, not_or] at h
    rw [lookup_cons, if_neg h.1]
    exact ih h.2

theorem lookup_assign_of_none {t s : Record} {pk : String}
    (h : s.lookup pk = none) : (assign t s).lookup pk = t.lookup pk := by
  induction s generalizing t with
  | nil => rfl
  | cons p ps ih =>
    obtain ⟨q, w⟩ := p
    rw [lookup_cons] at h
    by_cases hp : pk = q
    · rw [if_pos hp] at h; exact absurd h (by simp)
    · rw [if_neg hp] at h
      show (assign (setKV t q w) ps).lookup pk = _
      rw [ih h, lookup_setKV_ne _ _ hp]

theorem lookup_assign_of_some {t s : Record} {pk : String} {v : Int}
    (hwf : WfRecord s) (h : s.lookup pk = some v) : (assign t s).lookup pk = some v := by
  induction s generalizing t with
  | nil => exact absurd h (by simp [List.lookup])
  | cons p ps ih =>
    obtain ⟨q, w⟩ := p
    rw [lookup_cons] at h
    have hwf' : WfRecord ps := (List.nodup_cons.mp hwf).2
    by_cases hp : pk = q
    · rw [if_pos hp] at h
      have hnm : pk ∉ ps.map Prod.fst := by
        subst hp
        exact (List.nodup_cons.mp hwf).1
      show (assign (setKV t q w) ps).lookup pk = _
      rw [lookup_assign_of_none (lookup_eq_none_of_not_mem hnm), hp,
        lookup_setKV_self]
      exact h ▸ rfl
    · rw [if_neg hp] at h
      exact ih hwf' h

theorem defaultComparator_none_eq (a b : Record) : defaultComparator none a b = 0 := rfl

theorem defaultComparator_some_eq {pk : String} {a b : Record} {x y : Int}
    (ha : a.lookup pk = some x) (hb : b.lookup pk = some y) :
    defaultComparator (some pk) a b = if x < y then -1 else if y < x then 1 else 0 := by
  simp [defaultComparator, getPK, ha, hb, jslt]

theorem insertSorted_of_all {c : Cmp} {x : Record} {acc : List Record}
    (h : ∀ y ∈ acc, c y x ≤ 0) : insertSorted c x acc = acc ++ [x] := by
  induction acc with
  | nil => rfl
  | cons y ys ih =>
    simp only [insertSorted, if_pos (h y (List.mem_cons_self y ys)), List.cons_append,
      List.cons.injEq, true_and]
    exact ih fun z hz => h z (List.mem_cons_of_mem y hz)

theorem foldl_insertSorted_of_pairwise (c : Cmp) :
    ∀ (l acc : List Record), (acc ++ l).Pairwise (fun a b => c a b ≤ 0) →
      l.foldl (fun acc x => insertSorted c x acc) acc = acc ++ l := by
  intro l
  induction l with
  | nil => intro acc _; simp
  | cons x xs ih =>
    intro acc hp
    have hax : ∀ y ∈ acc, c y x ≤ 0 := by
      intro y hy
      exact (List.pairwise_append.mp hp).2.2 y hy x (List.mem_cons_self x xs)
    show List.foldl _ (insertSorted c x acc) xs = _
    rw [insertSorted_of_all hax, ih (acc ++ [x]) (by simpa using hp)]
    simp

theorem jsSort_of_pairwise {c : Cmp} {l : List Record}
    (h : l.Pairwise (fun a b => c a b ≤ 0)) : jsSort c l = l :=
  foldl_insertSorted_of_pairwise c l [] (by simpa using h)

theorem jsSort_defaultComparator_none (l : List Record) :
    jsSort (defaultComparator none) l = l :=
  jsSort_of_pairwise (List.pairwise_of_forall fun _ _ => by
    rw [defaultComparator_none_eq])

theorem jsSort_of_sortInv {pk : String} {l : List Record}
    (hinv : SortInv pk l) : jsSort (defaultComparator (some pk)) l = l := by
  refine jsSort_of_pairwise (List.Pairwise.imp_of_mem ?_ hinv.2)
  intro a b ha hb hk
  obtain ⟨x, hx⟩ := Option.isSome_iff_exists.mp (hinv.1 a ha)
  obtain ⟨y, hy⟩ := Option.isSome_iff_exists.mp (hinv.1 b hb)
  rw [defaultComparator_some_eq hx hy]
  simp only [keyD, hx, hy, Option.getD_some] at hk
  split_ifs with h1 h2 <;> omega

theorem keyD_mono {pk : String} {l : List Record} (h : KeysSorted pk l)
    {i j : Nat} (hij : i ≤ j) (hj : j < l.length) :
    keyD pk (l.getD i []) ≤ keyD pk (l.getD j []) := by
  rcases Nat.eq_or_lt_of_le hij with rfl | hlt
  · exact le_refl _
  · rw [List.getD_eq_getElem l [] (Nat.lt_trans hlt hj), List.getD_eq_getElem l [] hj]
    exact List.pairwise_iff_getElem.mp h i j _ _ hlt

theorem getD_mem {l : List Record} {i : Nat} (h : i < l.length) :
    l.getD i [] ∈ l := by
  rw [List.getD_eq_getElem l [] h]
  exact List.getElem_mem h

/-! ### Correctness of the binary-search loop -/

theorem searchGo_succ (c : Cmp) (l : List Record) (el : Record) (fuel : Nat)
    (left right : Int) :
    searchGo c l el (fuel + 1) left right =
      if left ≤ right then
        if c el (l.getD ((left + right) / 2).toNat []) < 0 then
          searchGo c l el fuel left ((left + right) / 2 - 1)
        else if c el (l.getD ((left + right) / 2).toNat []) > 0 then
          searchGo c l el fuel ((left + right) / 2 + 1) right
        else ((left + right) / 2, true)
      else (left, false) := rfl

/-- Correctness of the `while (left <= right)` loop of `searchIndex` for the
post-construction default comparator under the standing invariant: when a
stored record ties with the probe key `k` the loop returns its index with
`found = true`; otherwise it exits with `found = false` at the key-split
insertion point.  The fuel hypothesis shows fuel `length + 1` never runs
out, as the interval shrinks at every iteration. -/
theorem searchGo_spec {pk : String} {l : List Record} {el : Record} {k : Int}
    (hel : el.lookup pk = some k) (hkeyed : Keyed pk l)
    (hsorted : KeysSorted pk l) :
    ∀ (fuel : Nat) (left right : Int),
      (right + 1 - left).toNat < fuel →
      0 ≤ left → left ≤ (l.length : Int) → right < (l.length : Int) →
      (∀ i : Nat, i < l.length → (i : Int) < left → keyD pk (l.getD i []) < k) →
      (∀ i : Nat, i < l.length → right < (i : Int) → k < keyD pk (l.getD i [])) →
      (∃ j : Nat,
        searchGo (defaultComparator (some pk)) l el fuel left right = ((j : Int), true) ∧
          j < l.length ∧ keyD pk (l.getD j []) = k) ∨
      (∃ j : Nat,
        searchGo (defaultComparator (some pk)) l el fuel left right = ((j : Int), false) ∧
          j ≤ l.length ∧ (∀ i : Nat, i < l.length → i < j → keyD pk (l.getD i []) < k) ∧
          (∀ i : Nat, i < l.length → j ≤ i → k < keyD pk (l.getD i []))) := by
  intro fuel
  induction fuel with
  | zero =>
    intro left right hfuel
    exact absurd hfuel (by omega)
  | succ fuel ih =>
    intro left right hfuel h0 hlen hrlen hL hR
    by_cases hlr : left ≤ right
    · set mid := (left + right) / 2 with hmid
      have hmid1 : left ≤ mid := by omega
      have hmid2 : mid ≤ right := by omega
      have hmidnn : 0 ≤ mid := le_trans h0 hmid1
      have hmidnat : (mid.toNat : Int) = mid := Int.toNat_of_nonneg hmidnn
      have hmidlen : mid.toNat < l.length := by omega
      obtain ⟨km, hkm⟩ :=
        Option.isSome_iff_exists.mp (hkeyed _ (getD_mem hmidlen))
      have hcmp : defaultComparator (some pk) el (l.getD mid.toNat []) =
          if k < km then -1 else if km < k then 1 else 0 :=
        defaultComparator_some_eq hel hkm
      have hkmD : keyD pk (l.getD mid.toNat []) = km := by
        rw [keyD, hkm]; rfl
      rcases lt_trichotomy k km with hkk | hkk | hkk
      · -- probe key below the middle: shrink the right bound
        have hcmpv : defaultComparator (some pk) el (l.getD mid.toNat []) = -1 := by
          rw [hcmp, if_pos hkk]
        have hstep : searchGo (defaultComparator (some pk)) l el (fuel + 1) left right =
            searchGo (defaultComparator (some pk)) l el fuel left (mid - 1) := by
          rw [searchGo_succ, if_pos hlr, ← hmid, hcmpv,
            if_pos (show (-1 : Int) < 0 by norm_num)]
        rw [hstep]
        refine ih left (mid - 1) (by omega) h0 hlen (by omega) hL ?_
        intro i hi hmi
        have hge : mid.toNat ≤ i := by omega
        exact lt_of_lt_of_le (hkmD ▸ hkk) (keyD_mono hsorted hge hi)
      · -- tie: found at mid
        subst hkk
        have hcmpv : defaultComparator (some pk) el (l.getD mid.toNat []) = 0 := by
          rw [hcmp]
          simp [lt_self_iff_false]
        left
        refine ⟨mid.toNat, ?_, hmidlen, hkmD⟩
        rw [searchGo_succ, if_pos hlr, ← hmid, hcmpv,
          if_neg (show ¬ ((0 : Int) < 0) by norm_num),
          if_neg (show ¬ ((0 : Int) > 0) by norm_num), hmidnat]
      · -- probe key above the middle: raise the left bound
        have hcmpv : defaultComparator (some pk) el (l.getD mid.toNat []) = 1 := by
          rw [hcmp, if_neg (by omega), if_pos hkk]
        have hstep : searchGo (defaultComparator (some pk)) l el (fuel + 1) left right =
            searchGo (defaultComparator (some pk)) l el fuel (mid + 1) right := by
          rw [searchGo_succ, if_pos hlr, ← hmid, hcmpv,
            if_neg (show ¬ ((1 : Int) < 0) by norm_num),
            if_pos (show (1 : Int) > 0 by norm_num)]
        rw [hstep]
        refine ih (mid + 1) right (by omega) (by omega) (by omega) hrlen ?_ hR
        intro i hi hmi
        have hle : i ≤ mid.toNat := by omega
        exact lt_of_le_of_lt (keyD_mono hsorted hle hmidlen) (hkmD ▸ hkk)
    · -- loop exit: left > right
      right
      refine ⟨left.toNat, ?_, by omega, ?_, ?_⟩
      · rw [searchGo_succ, if_neg hlr, Int.toNat_of_nonneg h0]
      · intro i hi hij
        exact hL i hi (by omega)
      · intro i hi hij
        exact hR i hi (by omega)

/-! ### Characterization of `searchIndex` and of each operation under the
standing invariant -/

theorem searchIndex_spec {pk : String} {l : List Record} {el : Record} {k : Int}
    (hel : el.lookup pk = some k) (hkeyed : Keyed pk l)
    (hsorted : KeysSorted pk l) :
    (∃ j : Nat, (mkCol pk l).searchIndex el = Except.ok ((j : Int), true) ∧
        j < l.length ∧ keyD pk (l.getD j []) = k) ∨
    (∃ j : Nat, (mkCol pk l).searchIndex el = Except.ok ((j : Int), false) ∧
        j ≤ l.length ∧ (∀ i : Nat, i < l.length → i < j → keyD pk (l.getD i []) < k) ∧
        (∀ i : Nat, i < l.length → j ≤ i → k < keyD pk (l.getD i []))) := by
  have hhf : hasField el pk = true := by rw [hasField, hel]; rfl
  have hspec := searchGo_spec hel hkeyed hsorted (l.length + 1) 0 ((l.length : Int) - 1)
    (by omega) (by omega) (by omega) (by omega)
    (fun i _ hlt => absurd hlt (by omega))
    (fun i hi hgt => absurd hgt (by omega))
  rcases hspec with ⟨j, hgo, hjlen, hkey⟩ | ⟨j, hgo, hjle, hlt, hgt⟩
  · left
    refine ⟨j, ?_, hjlen, hkey⟩
    unfold Collection.searchIndex
    rw [show (mkCol pk l).primaryKey = pk from rfl, hhf, if_pos rfl, hgo]
  · right
    refine ⟨j, ?_, hjle, hlt, hgt⟩
    unfold Collection.searchIndex
    rw [show (mkCol pk l).primaryKey = pk from rfl, hhf, if_pos rfl, hgo]

theorem searchIndex_found {pk : String} {l : List Record} {el : Record} {k : Int}
    (hel : el.lookup pk = some k) (hkeyed : Keyed pk l) (hsorted : KeysSorted pk l)
    (hmem : ∃ r ∈ l, keyD pk r = k) :
    ∃ j : Nat, (mkCol pk l).searchIndex el = Except.ok ((j : Int), true) ∧
      j < l.length ∧ keyD pk (l.getD j []) = k := by
  rcases searchIndex_spec hel hkeyed hsorted with h | ⟨j, _, _, hlt, hgt⟩
  · exact h
  · exfalso
    obtain ⟨r, hr, hrk⟩ := hmem
    obtain ⟨n, hn, hrn⟩ := List.mem_iff_getElem.mp hr
    have hkn : keyD pk (l.getD n []) = k := by
      rw [List.getD_eq_getElem l [] hn, hrn, hrk]
    rcases Nat.lt_or_ge n j with hnj | hnj
    · exact absurd hkn (ne_of_lt (hlt n hn hnj))
    · exact absurd hkn.symm (ne_of_lt (hgt n hn hnj))

theorem searchIndex_not_found {pk : String} {l : List Record} {el : Record} {k : Int}
    (hel : el.lookup pk = some k) (hkeyed : Keyed pk l) (hsorted : KeysSorted pk l)
    (habs : ∀ r ∈ l, keyD pk r ≠ k) :
    ∃ j : Nat, (mkCol pk l).searchIndex el = Except.ok ((j : Int), false) ∧
      j ≤ l.length ∧ (∀ i : Nat, i < l.length → i < j → keyD pk (l.getD i []) < k) ∧
      (∀ i : Nat, i < l.length → j ≤ i → k < keyD pk (l.getD i [])) := by
  rcases searchIndex_spec hel hkeyed hsorted with ⟨j, _, hjlen, hkey⟩ | h
  · exact absurd hkey (habs _ (getD_mem hjlen))
  · exact h

theorem searchIndex_missing {col : Collection} {el : Record}
    (h : hasField el col.primaryKey = false) :
    col.searchIndex el = Except.error "cannot find the index without the primary key" := by
  unfold Collection.searchIndex
  rw [h]
  rfl

theorem insert_missing {col : Collection} {el : Record}
    (h : hasField el col.primaryKey = false) :
    col.insert el = Except.error "cannot find the index without the primary key" := by
  unfold Collection.insert
  rw [searchIndex_missing h]

theorem update_missing {col : Collection} {el : Record}
    (h : hasField el col.primaryKey = false) :
    col.update el = Except.error "cannot update an element without the primary key" := by
  unfold Collection.update
  rw [h]
  rfl

theorem remove_missing {col : Collection} {el : Record}
    (h : hasField el col.primaryKey = false) :
    col.remove el = Except.error "cannot find the index without the primary key" := by
  unfold Collection.remove
  rw [searchIndex_missing h]

theorem find_missing {col : Collection} {el : Record}
    (h : hasField el col.primaryKey = false) :
    col.find el = Except.error "cannot find the index without the primary key" := by
  unfold Collection.find
  rw [searchIndex_missing h]

theorem insert_of_key_found {pk : String} {l : List Record} {el : Record} {k : Int}
    (hel : el.lookup pk = some k) (hkeyed : Keyed pk l) (hsorted : KeysSorted pk l)
    (hmem : ∃ r ∈ l, keyD pk r = k) :
    (mkCol pk l).insert el = Except.ok (mkCol pk l, false, 0) := by
  obtain ⟨j, hsi, _, _⟩ := searchIndex_found hel hkeyed hsorted hmem
  unfold Collection.insert
  rw [hsi]
  rfl

theorem insert_split {pk : String} {l : List Record} {el : Record} {k : Int}
    (hel : el.lookup pk = some k) (hkeyed : Keyed pk l) (hsorted : KeysSorted pk l)
    (habs : ∀ r ∈ l, keyD pk r ≠ k) :
    ∃ j : Nat, (mkCol pk l).insert el =
        Except.ok (mkCol pk (insertAt l j el), true, 1) ∧
      j ≤ l.length ∧ (∀ i : Nat, i < l.length → i < j → keyD pk (l.getD i []) < k) ∧
      (∀ i : Nat, i < l.length → j ≤ i → k < keyD pk (l.getD i [])) := by
  obtain ⟨j, hsi, hjle, hlt, hgt⟩ := searchIndex_not_found hel hkeyed hsorted habs
  refine ⟨j, ?_, hjle, hlt, hgt⟩
  unfold Collection.insert
  rw [hsi]
  simp

theorem update_found {pk : String} {l : List Record} {el : Record} {k : Int}
    (hel : el.lookup pk = some k) (hkeyed : Keyed pk l) (hsorted : KeysSorted pk l)
    (hmem : ∃ r ∈ l, keyD pk r = k) :
    ∃ j : Nat, (mkCol pk l).update el =
        Except.ok (mkCol pk (l.set j (assign (l.getD j []) el)), true, 1) ∧
      j < l.length ∧ keyD pk (l.getD j []) = k := by
  obtain ⟨j, hsi, hjlen, hkey⟩ := searchIndex_found hel hkeyed hsorted hmem
  refine ⟨j, ?_, hjlen, hkey⟩
  have hhf : hasField el pk = true := by rw [hasField, hel]; rfl
  unfold Collection.update
  rw [show (mkCol pk l).primaryKey = pk from rfl, hhf, if_pos rfl, hsi]
  simp

theorem update_not_found {pk : String} {l : List Record} {el : Record} {k : Int}
    (hel : el.lookup pk = some k) (hkeyed : Keyed pk l) (hsorted : KeysSorted pk l)
    (habs : ∀ r ∈ l, keyD pk r ≠ k) :
    (mkCol pk l).update el = Except.ok (mkCol pk l, false, 0) := by
  obtain ⟨j, hsi, _, _, _⟩ := searchIndex_not_found hel hkeyed hsorted habs
  have hhf : hasField el pk = true := by rw [hasField, hel]; rfl
  unfold Collection.update
  rw [show (mkCol pk l).primaryKey = pk from rfl, hhf, if_pos rfl, hsi]
  rfl

theorem remove_found {pk : String} {l : List Record} {el : Record} {k : Int}
    (hel : el.lookup pk = some k) (hkeyed : Keyed pk l) (hsorted : KeysSorted pk l)
    (hmem : ∃ r ∈ l, keyD pk r = k) :
    ∃ j : Nat, (mkCol pk l).remove el = Except.ok (mkCol pk (l.eraseIdx j), true, 1) ∧
      j < l.length ∧ keyD pk (l.getD j []) = k := by
  obtain ⟨j, hsi, hjlen, hkey⟩ := searchIndex_found hel hkeyed hsorted hmem
  refine ⟨j, ?_, hjlen, hkey⟩
  unfold Collection.remove
  rw [hsi]
  simp

theorem remove_not_found {pk : String} {l : List Record} {el : Record} {k : Int}
    (hel : el.lookup pk = some k) (hkeyed : Keyed pk l) (hsorted : KeysSorted pk l)
    (habs : ∀ r ∈ l, keyD pk r ≠ k) :
    (mkCol pk l).remove el = Except.ok (mkCol pk l, false, 0) := by
  obtain ⟨j, hsi, _, _, _⟩ := searchIndex_not_found hel hkeyed hsorted habs
  unfold Collection.remove
  rw [hsi]
  rfl

theorem find_found {pk : String} {l : List Record} {el : Record} {k : Int}
    (hel : el.lookup pk = some k) (hkeyed : Keyed pk l) (hsorted : KeysSorted pk l)
    (hmem : ∃ r ∈ l, keyD pk r = k) :
    ∃ j : Nat, (mkCol pk l).find el = Except.ok (some (l.getD j [])) ∧
      j < l.length ∧ keyD pk (l.getD j []) = k := by
  obtain ⟨j, hsi, hjlen, hkey⟩ := searchIndex_found hel hkeyed hsorted hmem
  refine ⟨j, ?_, hjlen, hkey⟩
  unfold Collection.find
  rw [hsi]
  simp

theorem find_not_found {pk : String} {l : List Record} {el : Record} {k : Int}
    (hel : el.lookup pk = some k) (hkeyed : Keyed pk l) (hsorted : KeysSorted pk l)
    (habs : ∀ r ∈ l, keyD pk r ≠ k) :
    (mkCol pk l).find el = Except.ok none := by
  obtain ⟨j, hsi, _, _, _⟩ := searchIndex_not_found hel hkeyed hsorted habs
  unfold Collection.find
  rw [hsi]
  rfl

/-! ### Preservation of the standing invariant by every operation -/

theorem mem_insertAt {l : List Record} {x a : Record} {j : Nat}
    (h : a ∈ insertAt l j x) : a ∈ l ∨ a = x := by
  unfold insertAt at h
  rcases List.mem_append.mp h with h1 | h1
  · exact Or.inl (List.take_subset j l h1)
  · rcases List.mem_cons.mp h1 with h2 | h2
    · exact Or.inr h2
    · exact Or.inl (List.drop_subset j l h2)

theorem keyed_insertAt {pk : String} {l : List Record} {x : Record} {j : Nat}
    (hk : Keyed pk l) (hx : (x.lookup pk).isSome = true) :
    Keyed pk (insertAt l j x) := by
  intro a ha
  rcases mem_insertAt ha with h | rfl
  · exact hk a h
  · exact hx

theorem mem_take_key {pk : String} {l : List Record} {j : Nat} {a : Record}
    (h : a ∈ l.take j) :
    ∃ i : Nat, i < j ∧ i < l.length ∧ keyD pk a = keyD pk (l.getD i []) := by
  obtain ⟨i, hi, heq⟩ := List.mem_iff_getElem.mp h
  have hlen : i < j ∧ i < l.length := by
    have := hi
    rw [List.length_take] at this
    omega
  refine ⟨i, hlen.1, hlen.2, ?_⟩
  rw [← heq, List.getElem_take, List.getD_eq_getElem l [] hlen.2]

theorem mem_drop_key {pk : String} {l : List Record} {j : Nat} {a : Record}
    (h : a ∈ l.drop j) :
    ∃ i : Nat, j ≤ i ∧ i < l.length ∧ keyD pk a = keyD pk (l.getD i []) := by
  obtain ⟨m, hm, heq⟩ := List.mem_iff_getElem.mp h
  have hlen : j + m < l.length := by
    have := hm
    rw [List.length_drop] at this
    omega
  refine ⟨j + m, by omega, hlen, ?_⟩
  rw [← heq, List.getElem_drop, List.getD_eq_getElem l [] hlen]

theorem keysSorted_insertAt {pk : String} {l : List Record} {x : Record}
    {j : Nat} {k : Int} (hsorted : KeysSorted pk l) (hx : keyD pk x = k)
    (hlt : ∀ i : Nat, i < l.length → i < j → keyD pk (l.getD i []) < k)
    (hgt : ∀ i : Nat, i < l.length → j ≤ i → k < keyD pk (l.getD i [])) :
    KeysSorted pk (insertAt l j x) := by
  unfold insertAt KeysSorted
  rw [List.pairwise_append]
  refine ⟨List.Pairwise.sublist (List.take_sublist j l) hsorted, ?_, ?_⟩
  · rw [List.pairwise_cons]
    refine ⟨?_, List.Pairwise.sublist (List.drop_sublist j l) hsorted⟩
    intro b hb
    obtain ⟨i, hji, hilen, hbk⟩ := @mem_drop_key pk _ _ _ hb
    rw [hx, hbk]
    exact le_of_lt (hgt i hilen hji)
  · intro a ha b hb
    obtain ⟨i, hij, hilen, hak⟩ := @mem_take_key pk _ _ _ ha
    have hak' : keyD pk a < k := hak ▸ hlt i hilen hij
    rcases List.mem_cons.mp hb with rfl | hb'
    · rw [hx]
      exact le_of_lt hak'
    · obtain ⟨m, hjm, hmlen, hbk⟩ := @mem_drop_key pk _ _ _ hb'
      rw [hbk]
      exact le_of_lt (lt_trans hak' (hgt m hmlen hjm))

theorem keyed_set {pk : String} {l : List Record} {j : Nat} {x : Record}
    (hk : Keyed pk l) (hx : (x.lookup pk).isSome = true) :
    Keyed pk (l.set j x) := by
  intro a ha
  rcases List.mem_or_eq_of_mem_set ha with h | rfl
  · exact hk a h
  · exact hx

theorem set_self_of_getElem {α : Type} (l : List α) (j : Nat) (x : α)
    (hj : j < l.length) (hx : x = l[j]) : l.set j x = l := by
  apply List.ext_getElem (by simp)
  intro n h1 h2
  rw [List.getElem_set]
  split
  · next h => subst h; exact hx
  · rfl

theorem keysSorted_set {pk : String} {l : List Record} {j : Nat} {x : Record}
    (hsorted : KeysSorted pk l) (hj : j < l.length)
    (hkey : keyD pk x = keyD pk (l.getD j [])) :
    KeysSorted pk (l.set j x) := by
  have hmap : (l.set j x).map (keyD pk) = l.map (keyD pk) := by
    rw [List.map_set]
    refine set_self_of_getElem _ j _ (by simpa using hj) ?_
    rw [hkey, List.getElem_map, List.getD_eq_getElem l [] hj]
  have h1 : ((l.set j x).map (keyD pk)).Pairwise (fun a b => a ≤ b) := by
    rw [hmap]
    exact List.pairwise_map.mpr hsorted
  exact List.pairwise_map.mp h1

theorem sortInv_eraseIdx {pk : String} {l : List Record} (j : Nat)
    (hinv : SortInv pk l) : SortInv pk (l.eraseIdx j) :=
  ⟨fun a ha => hinv.1 a (List.Sublist.subset (List.eraseIdx_sublist l j) ha),
    List.Pairwise.sublist (List.eraseIdx_sublist l j) hinv.2⟩

theorem removeAllGo_succ_none (fuel : Nat)
    (col : Collection) (i count saves : Nat) :
    removeAllGo none (fuel + 1) col i count saves =
      if i < col.elements.length then
        match col.remove (col.elements.getD i []) with
        | Except.error _ => removeAllGo none fuel col (i + 1) (count + 1) saves
        | Except.ok (col', _, s) =>
          removeAllGo none fuel col' (i + 1) (count + 1) (saves + s)
      else (col, count, saves) := rfl

theorem removeAllGo_succ_some (c : Record → Bool) (fuel : Nat)
    (col : Collection) (i count saves : Nat) :
    removeAllGo (some c) (fuel + 1) col i count saves =
      if i < col.elements.length then
        (if c (col.elements.getD i []) then
          match col.remove (col.elements.getD i []) with
          | Except.error _ =>
            removeAllGo (some c) fuel col (i + 1) (count + 1) saves
          | Except.ok (col', _, s) =>
            removeAllGo (some c) fuel col' (i + 1) (count + 1) (saves + s)
        else removeAllGo (some c) fuel col (i + 1) count saves)
      else (col, count, saves) := rfl

theorem removeAllGo_sortInv {pk : String} (cond : Option (Record → Bool)) :
    ∀ (fuel : Nat) (l : List Record) (i count saves : Nat), SortInv pk l →
      ∃ l' count' saves',
        removeAllGo cond fuel (mkCol pk l) i count saves =
          (mkCol pk l', count', saves') ∧ SortInv pk l' := by
  intro fuel
  induction fuel with
  | zero =>
    intro l i count saves hinv
    exact ⟨l, count, saves, rfl, hinv⟩
  | succ fuel ih =>
    intro l i count saves hinv
    by_cases hi : i < (mkCol pk l).elements.length
    · have hmem0 : l.getD i [] ∈ l := getD_mem hi
      obtain ⟨k, hk⟩ := Option.isSome_iff_exists.mp (hinv.1 _ hmem0)
      have hkey : keyD pk (l.getD i []) = k := by rw [keyD, hk]; rfl
      have hmem : ∃ r ∈ l, keyD pk r = k := ⟨_, hmem0, hkey⟩
      obtain ⟨j, hrm, hjlen, _⟩ := remove_found hk hinv.1 hinv.2 hmem
      cases cond with
      | none =>
        rw [removeAllGo_succ_none, if_pos hi,
          show (mkCol pk l).remove ((mkCol pk l).elements.getD i []) =
            Except.ok (mkCol pk (l.eraseIdx j), true, 1) from hrm]
        exact ih (l.eraseIdx j) (i + 1) (count + 1) (saves + 1)
          (sortInv_eraseIdx j hinv)
      | some c =>
        rw [removeAllGo_succ_some, if_pos hi]
        by_cases hc : c ((mkCol pk l).elements.getD i []) = true
        · rw [if_pos hc,
            show (mkCol pk l).remove ((mkCol pk l).elements.getD i []) =
              Except.ok (mkCol pk (l.eraseIdx j), true, 1) from hrm]
          exact ih (l.eraseIdx j) (i + 1) (count + 1) (saves + 1)
            (sortInv_eraseIdx j hinv)
        · rw [if_neg hc]
          exact ih l (i + 1) count saves hinv
    · cases cond with
      | none =>
        rw [removeAllGo_succ_none, if_neg hi]
        exact ⟨l, count, saves, rfl, hinv⟩
      | some c =>
        rw [removeAllGo_succ_some, if_neg hi]
        exact ⟨l, count, saves, rfl, hinv⟩

theorem applyOp_sortInv {pk : String} {l : List Record} (op : Op)
    (hinv : SortInv pk l) (hwf : OpWf op) :
    ∃ l', applyOp (mkCol pk l) op = mkCol pk l' ∧ SortInv pk l' := by
  cases op with
  | ins r =>
    simp only [applyOp]
    cases hhf : hasField r pk
    · rw [insert_missing hhf]
      exact ⟨l, rfl, hinv⟩
    · obtain ⟨k, hk⟩ := Option.isSome_iff_exists.mp hhf
      by_cases hmem : ∃ e ∈ l, keyD pk e = k
      · rw [insert_of_key_found hk hinv.1 hinv.2 hmem]
        exact ⟨l, rfl, hinv⟩
      · push_neg at hmem
        obtain ⟨j, hins, hjle, hlt, hgt⟩ := insert_split hk hinv.1 hinv.2 hmem
        rw [hins]
        have hkeyx : keyD pk r = k := by rw [keyD, hk]; rfl
        exact ⟨insertAt l j r, rfl,
          keyed_insertAt hinv.1 (by rw [hk]; rfl),
          keysSorted_insertAt hinv.2 hkeyx hlt hgt⟩
  | upd r =>
    simp only [applyOp]
    cases hhf : hasField r pk
    · rw [update_missing hhf]
      exact ⟨l, rfl, hinv⟩
    · obtain ⟨k, hk⟩ := Option.isSome_iff_exists.mp hhf
      by_cases hmem : ∃ e ∈ l, keyD pk e = k
      · obtain ⟨j, hupd, hjlen, hkey⟩ := update_found hk hinv.1 hinv.2 hmem
        rw [hupd]
        have hlook : (assign (l.getD j []) r).lookup pk = some k :=
          lookup_assign_of_some hwf hk
        refine ⟨_, rfl, keyed_set hinv.1 (by rw [hlook]; rfl),
          keysSorted_set hinv.2 hjlen ?_⟩
        rw [keyD, hlook, hkey]
        rfl
      · push_neg at hmem
        rw [update_not_found hk hinv.1 hinv.2 hmem]
        exact ⟨l, rfl, hinv⟩
  | rem r =>
    simp only [applyOp]
    cases hhf : hasField r pk
    · rw [remove_missing hhf]
      exact ⟨l, rfl, hinv⟩
    · obtain ⟨k, hk⟩ := Option.isSome_iff_exists.mp hhf
      by_cases hmem : ∃ e ∈ l, keyD pk e = k
      · obtain ⟨j, hrm, hjlen, _⟩ := remove_found hk hinv.1 hinv.2 hmem
        rw [hrm]
        exact ⟨l.eraseIdx j, rfl, sortInv_eraseIdx j hinv⟩
      · push_neg at hmem
        rw [remove_not_found hk hinv.1 hinv.2 hmem]
        exact ⟨l, rfl, hinv⟩
  | remAll cond =>
    simp only [applyOp, Collection.removeAll]
    obtain ⟨l', count', saves', hgo, hinv'⟩ :=
      removeAllGo_sortInv cond ((mkCol pk l).elements.length + 1) l 0 0 0 hinv
    rw [hgo]
    exact ⟨l', rfl, hinv'⟩

theorem applyOps_sortInv {pk : String} {l : List Record} {ops : List Op}
    (hinv : SortInv pk l) (hwf : ∀ op ∈ ops, OpWf op) :
    ∃ l', applyOps (mkCol pk l) ops = mkCol pk l' ∧ SortInv pk l' := by
  induction ops generalizing l with
  | nil => exact ⟨l, rfl, hinv⟩
  | cons op ops ih =>
    obtain ⟨l1, hop, hinv1⟩ := applyOp_sortInv op hinv (hwf op (List.mem_cons_self op ops))
    obtain ⟨l', hops, hinv'⟩ := ih hinv1 (fun o ho => hwf o (List.mem_cons_of_mem op ho))
    refine ⟨l', ?_, hinv'⟩
    unfold applyOps at hops ⊢
    rw [List.foldl_cons, hop]
    exact hops

/-! ### The insert-then-find round trip -/

theorem singleton_eq_append_cons {α : Type} {xs ys : List α} {b a : α}
    (h : xs ++ b :: ys = [a]) : xs = [] ∧ b = a ∧ ys = [] := by
  have hlen : xs.length + (ys.length + 1) = 1 := by
    have := congrArg List.length h
    simpa using this
  have hxs : xs = [] := List.eq_nil_of_length_eq_zero (by omega)
  have hys : ys = [] := List.eq_nil_of_length_eq_zero (by omega)
  subst hxs
  subst hys
  simp only [List.nil_append] at h
  exact ⟨rfl, by simpa using h, rfl⟩

theorem list_decomp_at {l : List Record} {j : Nat} (hj : j < l.length) :
    l = l.take j ++ l.getD j [] :: l.drop (j + 1) := by
  conv_lhs => rw [← List.take_append_drop j l]
  rw [List.drop_eq_getElem_cons hj, List.getD_eq_getElem l [] hj]

theorem roundInv_acc_mem {pk : String} {k : Int} {acc : Record} {l : List Record}
    (hinv : RoundInv pk k acc l) : acc ∈ l ∧ keyD pk acc = k := by
  have hm : acc ∈ l.filter (fun e => keyD pk e == k) := by
    rw [hinv.2]
    exact List.mem_singleton.mpr rfl
  have h2 := List.mem_filter.mp hm
  exact ⟨h2.1, by simpa using h2.2⟩

theorem filter_take_drop_eq {l : List Record} (P : Record → Bool) (j : Nat) :
    (l.take j).filter P ++ (l.drop j).filter P = l.filter P := by
  rw [← List.filter_append, List.take_append_drop]

theorem roundInv_applyOp {pk : String} {k : Int} {acc : Record} {l : List Record}
    (op : Op) (hinv : RoundInv pk k acc l) (hok : RoundOk pk k op) :
    ∃ l', applyOp (mkCol pk l) op = mkCol pk l' ∧
      RoundInv pk k (roundMerge pk k acc op) l' := by
  obtain ⟨hsi, hfil⟩ := hinv
  cases op with
  | ins r =>
    simp only [applyOp, roundMerge]
    cases hhf : hasField r pk
    · rw [insert_missing hhf]
      exact ⟨l, rfl, hsi, hfil⟩
    · obtain ⟨k', hk'⟩ := Option.isSome_iff_exists.mp hhf
      by_cases hmem : ∃ e ∈ l, keyD pk e = k'
      · rw [insert_of_key_found hk' hsi.1 hsi.2 hmem]
        exact ⟨l, rfl, hsi, hfil⟩
      · push_neg at hmem
        obtain ⟨j, hins, hjle, hlt, hgt⟩ := insert_split hk' hsi.1 hsi.2 hmem
        rw [hins]
        have hkr : keyD pk r = k' := by rw [keyD, hk']; rfl
        have hkne : k' ≠ k := by
          intro he
          subst he
          obtain ⟨hmemacc, hkacc⟩ := roundInv_acc_mem ⟨hsi, hfil⟩
          exact hmem acc hmemacc hkacc
        refine ⟨insertAt l j r, rfl,
          ⟨keyed_insertAt hsi.1 (by rw [hk']; rfl),
            keysSorted_insertAt hsi.2 hkr hlt hgt⟩, ?_⟩
        unfold insertAt
        rw [List.filter_append, List.filter_cons,
          if_neg (by simp only [beq_iff_eq, hkr]; exact hkne),
          filter_take_drop_eq]
        exact hfil
  | upd r =>
    simp only [applyOp, roundMerge]
    cases hhf : hasField r pk
    · have hnone : r.lookup pk = none :=
        Option.not_isSome_iff_eq_none.mp (by rw [hasField] at hhf; simp [hhf])
      rw [update_missing hhf, if_neg (by rw [hnone]; exact fun h => Option.noConfusion h)]
      exact ⟨l, rfl, hsi, hfil⟩
    · obtain ⟨k', hk'⟩ := Option.isSome_iff_exists.mp hhf
      have hwf : WfRecord r := hok
      by_cases hmem : ∃ e ∈ l, keyD pk e = k'
      · obtain ⟨j, hupd, hjlen, hkeyj⟩ := update_found hk' hsi.1 hsi.2 hmem
        rw [hupd]
        have hassign : (assign (l.getD j []) r).lookup pk = some k' :=
          lookup_assign_of_some hwf hk'
        have hkassign : keyD pk (assign (l.getD j []) r) = k' := by
          rw [keyD, hassign]
          rfl
        have hset : l.set j (assign (l.getD j []) r) =
            l.take j ++ assign (l.getD j []) r :: l.drop (j + 1) := by
          rw [List.set_eq_take_append_cons_drop, if_pos hjlen]
        have hsortInv' : SortInv pk (l.set j (assign (l.getD j []) r)) :=
          ⟨keyed_set hsi.1 (by rw [hassign]; rfl),
            keysSorted_set hsi.2 hjlen (by rw [hkassign, hkeyj])⟩
        have hfilsplit : (l.take j).filter (fun e => keyD pk e == k) ++
            (l.getD j [] :: l.drop (j + 1)).filter (fun e => keyD pk e == k) = [acc] := by
          rw [← List.filter_append, ← list_decomp_at hjlen]
          exact hfil
        by_cases hkk : k' = k
        · subst hkk
          rw [if_pos hk']
          refine ⟨_, rfl, hsortInv', ?_⟩
          rw [List.filter_cons, if_pos (beq_iff_eq.mpr hkeyj)] at hfilsplit
          obtain ⟨htake, hacc, hdrop⟩ := singleton_eq_append_cons hfilsplit
          rw [hset, List.filter_append, List.filter_cons,
            if_pos (beq_iff_eq.mpr hkassign), htake, hdrop, hacc]
          rfl
        · rw [if_neg (fun h => hkk (Option.some.inj (hk'.symm.trans h)))]
          refine ⟨_, rfl, hsortInv', ?_⟩
          rw [List.filter_cons,
            if_neg (by simp only [beq_iff_eq, hkeyj]; exact hkk)] at hfilsplit
          rw [hset, List.filter_append, List.filter_cons,
            if_neg (by simp only [beq_iff_eq, hkassign]; exact hkk)]
          exact hfilsplit
      · push_neg at hmem
        rw [update_not_found hk' hsi.1 hsi.2 hmem]
        have hkne : k' ≠ k := by
          intro he
          subst he
          obtain ⟨hmemacc, hkacc⟩ := roundInv_acc_mem ⟨hsi, hfil⟩
          exact hmem acc hmemacc hkacc
        rw [if_neg (fun h => hkne (Option.some.inj (hk'.symm.trans h)))]
        exact ⟨l, rfl, hsi, hfil⟩
  | rem r =>
    simp only [applyOp, roundMerge]
    cases hhf : hasField r pk
    · rw [remove_missing hhf]
      exact ⟨l, rfl, hsi, hfil⟩
    · obtain ⟨k', hk'⟩ := Option.isSome_iff_exists.mp hhf
      have hkne : k' ≠ k := hok k' hk'
      by_cases hmem : ∃ e ∈ l, keyD pk e = k'
      · obtain ⟨j, hrm, hjlen, hkeyj⟩ := remove_found hk' hsi.1 hsi.2 hmem
        rw [hrm]
        refine ⟨l.eraseIdx j, rfl, sortInv_eraseIdx j hsi, ?_⟩
        have hfilsplit : (l.take j).filter (fun e => keyD pk e == k) ++
            (l.getD j [] :: l.drop (j + 1)).filter (fun e => keyD pk e == k) = [acc] := by
          rw [← List.filter_append, ← list_decomp_at hjlen]
          exact hfil
        rw [List.filter_cons,
          if_neg (by simp only [beq_iff_eq, hkeyj]; exact hkne)] at hfilsplit
        rw [List.eraseIdx_eq_take_drop_succ, List.filter_append]
        exact hfilsplit
      · push_neg at hmem
        rw [remove_not_found hk' hsi.1 hsi.2 hmem]
        exact ⟨l, rfl, hsi, hfil⟩
  | remAll cond => exact hok.elim

theorem roundInv_applyOps {pk : String} {k : Int} {acc : Record} {l : List Record}
    {ops : List Op} (hinv : RoundInv pk k acc l)
    (hok : ∀ op ∈ ops, RoundOk pk k op) :
    ∃ l', applyOps (mkCol pk l) ops = mkCol pk l' ∧
      RoundInv pk k (ops.foldl (roundMerge pk k) acc) l' := by
  induction ops generalizing l acc with
  | nil => exact ⟨l, rfl, hinv⟩
  | cons op ops ih =>
    obtain ⟨l1, hop, hinv1⟩ :=
      roundInv_applyOp op hinv (hok op (List.mem_cons_self op ops))
    obtain ⟨l', hops, hinv'⟩ := ih hinv1 (fun o ho => hok o (List.mem_cons_of_mem op ho))
    refine ⟨l', ?_, hinv'⟩
    unfold applyOps at hops ⊢
    rw [List.foldl_cons, hop]
    exact hops

theorem find_roundInv {pk : String} {k : Int} {acc : Record} {l : List Record}
    (hinv : RoundInv pk k acc l) :
    (mkCol pk l).find [(pk, k)] = Except.ok (some acc) := by
  have hel : List.lookup pk [(pk, k)] = some k := by
    rw [lookup_cons, if_pos rfl]
  obtain ⟨hmemacc, hkacc⟩ := roundInv_acc_mem hinv
  obtain ⟨j, hfind, hjlen, hkeyj⟩ :=
    find_found hel hinv.1.1 hinv.1.2 ⟨acc, hmemacc, hkacc⟩
  have : l.getD j [] = acc := by
    have hm : l.getD j [] ∈ l.filter (fun e => keyD pk e == k) :=
      List.mem_filter.mpr ⟨getD_mem hjlen, beq_iff_eq.mpr hkeyj⟩
    rw [hinv.2] at hm
    exact List.mem_singleton.mp hm
  rw [hfind, this]

theorem roundInv_insertAt {pk : String} {k : Int} {l : List Record} {r : Record}
    {j : Nat} (hinv : SortInv pk l) (hr : r.lookup pk = some k)
    (habs : ∀ e ∈ l, keyD pk e ≠ k)
    (hlt : ∀ i : Nat, i < l.length → i < j → keyD pk (l.getD i []) < k)
    (hgt : ∀ i : Nat, i < l.length → j ≤ i → k < keyD pk (l.getD i [])) :
    RoundInv pk k r (insertAt l j r) := by
  have hkr : keyD pk r = k := by rw [keyD, hr]; rfl
  refine ⟨⟨keyed_insertAt hinv.1 (by rw [hr]; rfl),
    keysSorted_insertAt hinv.2 hkr hlt hgt⟩, ?_⟩
  have hnil : l.filter (fun e => keyD pk e == k) = [] :=
    List.filter_eq_nil_iff.mpr fun a ha => by
      simp only [beq_iff_eq]
      exact habs a ha
  unfold insertAt
  rw [List.filter_append, List.filter_cons, if_pos (beq_iff_eq.mpr hkr)]
  have htake : (l.take j).filter (fun e => keyD pk e == k) = [] :=
    List.filter_eq_nil_iff.mpr fun a ha => by
      simp only [beq_iff_eq]
      exact habs a (List.take_subset j l ha)
  have hdrop : (l.drop j).filter (fun e => keyD pk e == k) = [] :=
    List.filter_eq_nil_iff.mpr fun a ha => by
      simp only [beq_iff_eq]
      exact habs a (List.drop_subset j l ha)
  rw [htake, hdrop]
  rfl

theorem lookup_eq_some_of_keyD {pk : String} {r : Record} {k : Int}
    (hs : (r.lookup pk).isSome = true) (hk : keyD pk r = k) :
    r.lookup pk = some k := by
  obtain ⟨v, hv⟩ := Option.isSome_iff_exists.mp hs
  rw [keyD, hv] at hk
  rw [hv]
  simpa using hk

theorem getOrCreateArray_arr {data : RootData} {name : String} {xs : List JSON}
    (h : data.lookup name = some (JSON.arr xs)) :
    getOrCreateArray data name = Except.ok (data, xs) := by
  unfold getOrCreateArray
  rw [h]
  rfl

/-! ### Claims -/

/-- C1, counterexample to the claim as stated: a collection constructed with
the default comparator from an initial sequence that is unsorted on the key
field violates the sortedness invariant before any operation runs (the empty
operation sequence): iteration yields the original order `[{id:5},{id:3}]`
while sorting the current records from scratch with the collection's
(post-construction) ordering yields `[{id:3},{id:5}]`. -/
theorem c1_counterexample :
    (applyOps (Collection.make none [[("id", 5)], [("id", 3)]] "id") []).elements
        = [[("id", 5)], [("id", 3)]] ∧
    jsSort (applyOps (Collection.make none [[("id", 5)], [("id", 3)]] "id") []).comparator
        (applyOps (Collection.make none [[("id", 5)], [("id", 3)]] "id") []).elements
        = [[("id", 3)], [("id", 5)]] := by
  exact ⟨rfl, rfl⟩

/-- C1 (amended): for every collection using the default comparator whose
backing sequence satisfies the standing invariant at the outset — sorted by
key-field value with every stored record carrying the key field, a state the
constructor itself fails to establish because its initial sort runs before
`primaryKey` is assigned — every sequence of `insert`, `update`, `remove` and
`removeAll` operations (with JS-object, i.e. duplicate-free, update
arguments) preserves it: afterwards, sorting the current records from
scratch with the collection's ordering equals the collection's iteration
order. -/
theorem c1_sortedness_invariant (pk : String) (l : List Record) (ops : List Op)
    (hinv : SortInv pk l) (hwf : ∀ op ∈ ops, OpWf op) :
    jsSort (applyOps (mkCol pk l) ops).comparator
        (applyOps (mkCol pk l) ops).elements
      = (applyOps (mkCol pk l) ops).elements := by
  obtain ⟨l', hops, hinv'⟩ := applyOps_sortInv hinv hwf
  rw [hops]
  exact jsSort_of_sortInv hinv'

/-- C1, witness: a sorted three-record collection taken through one insert,
one update, one remove and one predicate `removeAll` still iterates in
sorted order. -/
theorem c1_witness :
    jsSort (applyOps (mkCol "id" [[("id", 1)], [("id", 2), ("v", 1)], [("id", 4)]])
          [Op.ins [("id", 3)], Op.upd [("id", 2), ("v", 9)], Op.rem [("id", 1)],
            Op.remAll (some (fun r => decide (keyD "id" r < 3)))]).comparator
        (applyOps (mkCol "id" [[("id", 1)], [("id", 2), ("v", 1)], [("id", 4)]])
          [Op.ins [("id", 3)], Op.upd [("id", 2), ("v", 9)], Op.rem [("id", 1)],
            Op.remAll (some (fun r => decide (keyD "id" r < 3)))]).elements
      = (applyOps (mkCol "id" [[("id", 1)], [("id", 2), ("v", 1)], [("id", 4)]])
          [Op.ins [("id", 3)], Op.upd [("id", 2), ("v", 9)], Op.rem [("id", 1)],
            Op.remAll (some (fun r => decide (keyD "id" r < 3)))]).elements := by
  apply c1_sortedness_invariant
  · unfold SortInv Keyed KeysSorted
    exact ⟨by decide, by decide⟩
  · intro op hop
    fin_cases hop
    · exact trivial
    · unfold OpWf WfRecord
      decide
    · exact trivial
    · exact trivial

/-- C2: the constructor does not sort the initial sequence when no comparator
is supplied.  `this.elements = options.elements.sort(this.comparator)` runs
before `this.primaryKey = options.primaryKey`, so the default comparator
reads `a[undefined]` and returns `0` for every pair: the stable sort leaves
`[{id:2},{id:1}]` in its original, unsorted order, while the ordering the
spec prescribes (generic less-than on the key field, shown with the same
comparator once `primaryKey` is assigned) gives `[{id:1},{id:2}]`. -/
theorem c2_constructor_does_not_sort :
    (Collection.make none [[("id", 2)], [("id", 1)]] "id").elements
        = [[("id", 2)], [("id", 1)]] ∧
    jsSort (defaultComparator (some "id")) [[("id", 2)], [("id", 1)]]
        = [[("id", 1)], [("id", 2)]] := by
  exact ⟨rfl, rfl⟩

/-- C3: `removeAll()` with no predicate does not empty a three-record
collection and does not return 3.  The `for (const el of this)` loop walks
the live backing array while `remove` splices it, so after removing the
record at cursor 0 the cursor moves to 1, which now holds the third record:
`{id:2}` is never visited.  The call returns 2 (and triggers 2 saves), and
one record remains. -/
theorem c3_removeAll_skips_records :
    ((mkCol "id" [[("id", 1)], [("id", 2)], [("id", 3)]]).removeAll none).2.1 = 2 ∧
    ((mkCol "id" [[("id", 1)], [("id", 2)], [("id", 3)]]).removeAll none).2.2 = 2 ∧
    ((mkCol "id" [[("id", 1)], [("id", 2)], [("id", 3)]]).removeAll none).1.elements
        = [[("id", 2)]] := by
  exact ⟨rfl, rfl, rfl⟩

/-- C4: inserting a record whose key-field value already exists in a
collection satisfying the standing invariant returns `false`, triggers no
save, and leaves the collection state — in particular the stored record with
that key — completely unchanged; hence a repeated insert after a successful
one changes nothing. -/
theorem c4_insert_key_collision (pk : String) (l : List Record) (r : Record)
    (k : Int) (hinv : SortInv pk l) (hr : r.lookup pk = some k)
    (hmem : ∃ e ∈ l, keyD pk e = k) :
    (mkCol pk l).insert r = Except.ok (mkCol pk l, false, 0) :=
  insert_of_key_found hr hinv.1 hinv.2 hmem

/-- C4, witness: re-inserting key 2 into `[{id:1},{id:2,v:7}]` returns false
and leaves the records unchanged. -/
theorem c4_witness :
    (mkCol "id" [[("id", 1)], [("id", 2), ("v", 7)]]).insert [("id", 2)]
      = Except.ok (mkCol "id" [[("id", 1)], [("id", 2), ("v", 7)]], false, 0) :=
  c4_insert_key_collision "id" [[("id", 1)], [("id", 2), ("v", 7)]] [("id", 2)] 2
    (by unfold SortInv Keyed KeysSorted; exact ⟨by decide, by decide⟩) rfl
    ⟨[("id", 2), ("v", 7)], by decide, by decide⟩

/-- C5: insert-then-find round trip.  After a successful `insert(r)` (key
`k` fresh) and any sequence of intervening operations that never remove key
`k` — inserts of anything, well-formed updates (which, under the default
comparator, can only find a record whose key equals their own and therefore
never alter a stored key), and removes addressed to other keys —
`find({key: k})` returns exactly `r` merged, in order, with every
intervening update addressed to `k`. -/
theorem c5_insert_find_roundtrip (pk : String) (l : List Record) (r : Record)
    (k : Int) (ops : List Op) (hinv : SortInv pk l) (hr : r.lookup pk = some k)
    (habs : ∀ e ∈ l, keyD pk e ≠ k) (hops : ∀ op ∈ ops, RoundOk pk k op)
    (col1 : Collection) (b : Bool) (n : Nat)
    (hins : (mkCol pk l).insert r = Except.ok (col1, b, n)) :
    b = true ∧ n = 1 ∧
    (applyOps col1 ops).find [(pk, k)]
      = Except.ok (some (ops.foldl (roundMerge pk k) r)) := by
  obtain ⟨j, hins', hjle, hlt, hgt⟩ := insert_split hr hinv.1 hinv.2 habs
  rw [hins'] at hins
  obtain ⟨hcol, hb, hn⟩ : mkCol pk (insertAt l j r) = col1 ∧ true = b ∧ 1 = n := by
    have h1 := Except.ok.inj hins
    exact ⟨congrArg Prod.fst h1, congrArg (fun p => p.2.1) h1,
      congrArg (fun p => p.2.2) h1⟩
  refine ⟨hb.symm, hn.symm, ?_⟩
  rw [← hcol]
  obtain ⟨l', hops', hinv'⟩ :=
    roundInv_applyOps (roundInv_insertAt hinv hr habs hlt hgt) hops
  rw [hops']
  exact find_roundInv hinv'

/-- C5, witness: insert `{id:2,v:10}` into `[{id:1},{id:3}]`, then insert
`{id:5}`, update `{id:2,v:20}` and remove `{id:1}`; `find({id:2})` returns
the inserted record with the update merged in. -/
theorem c5_witness :
    true = true ∧ 1 = 1 ∧
    (applyOps (mkCol "id" [[("id", 1)], [("id", 2), ("v", 10)], [("id", 3)]])
        [Op.ins [("id", 5)], Op.upd [("id", 2), ("v", 20)], Op.rem [("id", 1)]]).find
        [("id", 2)]
      = Except.ok (some [("id", 2), ("v", 20)]) := by
  have h := c5_insert_find_roundtrip "id" [[("id", 1)], [("id", 3)]]
    [("id", 2), ("v", 10)] 2
    [Op.ins [("id", 5)], Op.upd [("id", 2), ("v", 20)], Op.rem [("id", 1)]]
    (by unfold SortInv Keyed KeysSorted; exact ⟨by decide, by decide⟩) rfl
    (by decide)
    (by
      intro op hop
      fin_cases hop
      · exact trivial
      · unfold RoundOk WfRecord
        decide
      · unfold RoundOk
        intro k' hk'
        rw [lookup_cons, if_pos rfl] at hk'
        have := Option.some.inj hk'
        omega)
    (mkCol "id" [[("id", 1)], [("id", 2), ("v", 10)], [("id", 3)]]) true 1 rfl
  exact h

/-- C6, counterexample to the claim as stated: `update` is declared `async`,
so its missing-key `TypeError` rejects the returned promise; the immediate
caller synchronously receives a value (the promise), not a thrown error.
The claim that `update` raises synchronously is therefore false. -/
theorem c6_counterexample :
    hasField [("name", 7)] (mkCol "id" [[("id", 1)]]).primaryKey = false ∧
    (mkCol "id" [[("id", 1)]]).updateCall [("name", 7)]
        = SyncResult.value
            (Except.error "cannot update an element without the primary key") ∧
    ¬ ∃ m, (mkCol "id" [[("id", 1)]]).updateCall [("name", 7)]
        = SyncResult.thrown m := by
  refine ⟨rfl, rfl, ?_⟩
  rintro ⟨m, hm⟩
  rw [show (mkCol "id" [[("id", 1)]]).updateCall [("name", 7)]
      = SyncResult.value
          (Except.error "cannot update an element without the primary key")
    from rfl] at hm
  exact SyncResult.noConfusion hm

/-- C6 (amended): for every argument lacking the key field, all three
operations produce the `TypeError` before any mutation of the backing
sequence and before any save (the error return carries no new state and a
save count of zero); `find`, which is not `async`, throws it synchronously
to the immediate caller, while `update` and `remove`, which are `async`,
deliver the same `TypeError` by rejecting the promise they return instead of
throwing synchronously. -/
theorem c6_missing_key_errors (col : Collection) (el : Record)
    (h : hasField el col.primaryKey = false) :
    col.findCall el
        = SyncResult.thrown "cannot find the index without the primary key" ∧
    col.updateCall el
        = SyncResult.value
            (Except.error "cannot update an element without the primary key") ∧
    col.removeCall el
        = SyncResult.value
            (Except.error "cannot find the index without the primary key") := by
  refine ⟨?_, ?_, ?_⟩
  · unfold Collection.findCall
    rw [find_missing h]
  · unfold Collection.updateCall
    rw [update_missing h]
  · unfold Collection.removeCall
    rw [remove_missing h]

/-- C6, witness: the three calls on a concrete collection with a key-missing
argument. -/
theorem c6_witness :
    (mkCol "id" [[("id", 1)]]).findCall [("w", 3)]
        = SyncResult.thrown "cannot find the index without the primary key" ∧
    (mkCol "id" [[("id", 1)]]).updateCall [("w", 3)]
        = SyncResult.value
            (Except.error "cannot update an element without the primary key") ∧
    (mkCol "id" [[("id", 1)]]).removeCall [("w", 3)]
        = SyncResult.value
            (Except.error "cannot find the index without the primary key") :=
  c6_missing_key_errors (mkCol "id" [[("id", 1)]]) [("w", 3)] rfl

/-- C7, counterexample to the claim as stated: a *falsy* non-array value
stored under the requested name (here the number `0`) does not throw — the
`||` in `data[name] || (data[name] = [])` treats it as absent, overwrites it
with a fresh empty array and returns that array — although the value present
under the name is not an array. -/
theorem c7_counterexample :
    getOrCreateArray [("users", JSON.num 0)] "users"
        = Except.ok ([("users", JSON.arr [])], []) ∧
    ¬ ∃ e, getOrCreateArray [("users", JSON.num 0)] "users" = Except.error e := by
  refine ⟨rfl, ?_⟩
  rintro ⟨e, he⟩
  rw [show getOrCreateArray [("users", JSON.num 0)] "users"
      = Except.ok ([("users", JSON.arr [])], []) from rfl] at he
  exact Except.noConfusion he

/-- C7 (amended): the factory's array lookup returns the stored array when
one is present; when the name is absent *or its value is falsy* it stores
and returns a fresh empty array; and it throws the `TypeError` exactly when
the stored value is truthy and not an array. -/
theorem c7_get_or_create_array (data : RootData) (name : String) :
    (data.lookup name = none →
      getOrCreateArray data name
        = Except.ok (setKV data name (JSON.arr []), [])) ∧
    (∀ xs, data.lookup name = some (JSON.arr xs) →
      getOrCreateArray data name = Except.ok (data, xs)) ∧
    (∀ v, data.lookup name = some v → v.truthy = false →
      getOrCreateArray data name
        = Except.ok (setKV data name (JSON.arr []), [])) ∧
    (∀ v, data.lookup name = some v → v.truthy = true → v.isArr = false →
      getOrCreateArray data name
        = Except.error ("Property " ++ name ++ " in the database is not an array.")) := by
  refine ⟨?_, ?_, ?_, ?_⟩
  · intro h
    unfold getOrCreateArray
    rw [h]
  · intro xs h
    exact getOrCreateArray_arr h
  · intro v h ht
    unfold getOrCreateArray
    rw [h]
    simp [ht]
  · intro v h ht ha
    unfold getOrCreateArray
    rw [h]
    cases v with
    | arr xs => exact absurd ha (by simp [JSON.isArr])
    | null => exact absurd ht (by simp [JSON.truthy])
    | bool b => simp [ht]
    | num n => simp [ht]
    | str s => simp [ht]
    | obj fs => simp [ht]

/-- C7, witness: a truthy non-array (a non-empty string) under the requested
name throws the schema-violation `TypeError`. -/
theorem c7_witness :
    getOrCreateArray [("users", JSON.str "oops")] "users"
      = Except.error "Property users in the database is not an array." :=
  (c7_get_or_create_array [("users", JSON.str "oops")] "users").2.2.2
    (JSON.str "oops") rfl rfl rfl

/-- C8: when the file read throws (absent file) or its content does not
parse, `connect` surfaces no error and uses the configured `init` object as
the root object, so a collection requested afterwards is seeded from the
array `init` holds under its name. -/
theorem c8_connect_falls_back_to_init (readResult : Except String String)
    (parse : String → Except String JSON) (init : RootData)
    (h : (∃ e, readResult = Except.error e) ∨
      (∃ s e, readResult = Except.ok s ∧ parse s = Except.error e)) :
    connectData readResult parse init = JSON.obj init ∧
    ∀ name xs, init.lookup name = some (JSON.arr xs) →
      getOrCreateArray init name = Except.ok (init, xs) := by
  constructor
  · rcases h with ⟨e, he⟩ | ⟨s, e, hs, hp⟩
    · rw [he]
      rfl
    · rw [hs]
      unfold connectData
      simp [hp]
  · intro name xs hx
    exact getOrCreateArray_arr hx

/-- C8, witness: a read that throws `ENOENT` with `init` holding a `users`
array falls back to `init`, and the `users` collection is seeded from it. -/
theorem c8_witness :
    connectData (Except.error "ENOENT") (fun _ => Except.error "bad")
        [("users", JSON.arr [JSON.obj [("id", JSON.num 1)]])]
      = JSON.obj [("users", JSON.arr [JSON.obj [("id", JSON.num 1)]])] ∧
    getOrCreateArray [("users", JSON.arr [JSON.obj [("id", JSON.num 1)]])] "users"
      = Except.ok ([("users", JSON.arr [JSON.obj [("id", JSON.num 1)]])],
          [JSON.obj [("id", JSON.num 1)]]) := by
  have h := c8_connect_falls_back_to_init (Except.error "ENOENT")
    (fun _ => Except.error "bad")
    [("users", JSON.arr [JSON.obj [("id", JSON.num 1)]])]
    (Or.inl ⟨"ENOENT", rfl⟩)
  exact ⟨h.1, h.2 "users" [JSON.obj [("id", JSON.num 1)]] rfl⟩

/-- C9: two collection instances obtained from the same connection for the
same name share the same backing array: a record inserted through the first
instance is returned by `find` on the second.  The root store is shared
state and each instance's methods read and write `data[name]`; each factory
call also re-sorts the shared array in place, which (with the default
comparator, whose constructor-time form compares `undefined` fields and
returns 0) leaves it unchanged. -/
theorem c9_shared_backing_array (st : DBState) (name pk : String)
    (elems : List Record) (r : Record) (k : Int)
    (hlook : st.data.lookup name = some elems)
    (hinv : SortInv pk elems) (hr : r.lookup pk = some k)
    (habs : ∀ e ∈ elems, keyD pk e ≠ k)
    (st1 st2 st3 : DBState) (h1 h2 : DBHandle) (inserted : Bool)
    (hcreate1 : dbCreateCollection st name pk none = (st1, h1))
    (hcreate2 : dbCreateCollection st1 name pk none = (st2, h2))
    (hins : dbInsert st2 h1 r = Except.ok (st3, inserted)) :
    inserted = true ∧ dbFind st3 h2 [(pk, k)] = Except.ok (some r) := by
  have hgoc : st.getOrCreate name = (st, elems) := by
    unfold DBState.getOrCreate
    rw [hlook]
  have hc1 : dbCreateCollection st name pk none
      = (DBState.mk (setKV st.data name elems), DBHandle.mk name pk none) := by
    unfold dbCreateCollection
    rw [hgoc]
    simp only [Option.getD_none, jsSort_defaultComparator_none]
  rw [hc1] at hcreate1
  injection hcreate1 with hst1 hh1
  subst hst1
  subst hh1
  have hlook1 : (setKV st.data name elems).lookup name = some elems :=
    lookup_setKV_self st.data name elems
  have hgoc1 : DBState.getOrCreate (DBState.mk (setKV st.data name elems)) name
      = (DBState.mk (setKV st.data name elems), elems) := by
    unfold DBState.getOrCreate
    rw [show (DBState.mk (setKV st.data name elems)).data
        = setKV st.data name elems from rfl, hlook1]
  have hc2 : dbCreateCollection (DBState.mk (setKV st.data name elems)) name pk none
      = (DBState.mk (setKV (setKV st.data name elems) name elems),
          DBHandle.mk name pk none) := by
    unfold dbCreateCollection
    rw [hgoc1]
    simp only [Option.getD_none, jsSort_defaultComparator_none]
  rw [hc2] at hcreate2
  injection hcreate2 with hst2 hh2
  subst hst2
  subst hh2
  have hlook2 : (setKV (setKV st.data name elems) name elems).lookup name
      = some elems := lookup_setKV_self _ name elems
  have hview : DBHandle.view (DBHandle.mk name pk none)
      (DBState.mk (setKV (setKV st.data name elems) name elems))
      = mkCol pk elems := by
    unfold DBHandle.view
    rw [show (DBHandle.mk name pk none).name = name from rfl,
      show (DBState.mk (setKV (setKV st.data name elems) name elems)).data
        = setKV (setKV st.data name elems) name elems from rfl, hlook2]
    rfl
  obtain ⟨j, hins', hjle, hlt, hgt⟩ := insert_split hr hinv.1 hinv.2 habs
  have hdbins : dbInsert (DBState.mk (setKV (setKV st.data name elems) name elems))
      (DBHandle.mk name pk none) r
      = Except.ok (DBState.mk (setKV (setKV (setKV st.data name elems) name elems)
          name (insertAt elems j r)), true) := by
    unfold dbInsert
    rw [hview, hins']
  rw [hdbins] at hins
  injection hins with hpair
  injection hpair with hst3 hb
  subst hst3
  subst hb
  refine ⟨rfl, ?_⟩
  unfold dbFind
  have hlook3 : (setKV (setKV (setKV st.data name elems) name elems) name
      (insertAt elems j r)).lookup name = some (insertAt elems j r) :=
    lookup_setKV_self _ name _
  have hview3 : DBHandle.view (DBHandle.mk name pk none)
      (DBState.mk (setKV (setKV (setKV st.data name elems) name elems) name
        (insertAt elems j r))) = mkCol pk (insertAt elems j r) := by
    unfold DBHandle.view
    rw [show (DBHandle.mk name pk none).name = name from rfl,
      show (DBState.mk (setKV (setKV (setKV st.data name elems) name elems) name
        (insertAt elems j r))).data
        = setKV (setKV (setKV st.data name elems) name elems) name
          (insertAt elems j r) from rfl, hlook3]
    rfl
  rw [hview3]
  exact find_roundInv (roundInv_insertAt hinv hr habs hlt hgt)

/-- C9, witness: two instances for `users` from the same connection;
inserting `{id:2}` through the first is found through the second. -/
theorem c9_witness :
    true = true ∧
    dbFind (DBState.mk [("users", [[("id", 1)], [("id", 2)]])])
      (DBHandle.mk "users" "id" none) [("id", 2)]
      = Except.ok (some [("id", 2)]) := by
  have h := c9_shared_backing_array (DBState.mk [("users", [[("id", 1)]])])
    "users" "id" [[("id", 1)]] [("id", 2)] 2 rfl
    (by unfold SortInv Keyed KeysSorted; exact ⟨by decide, by decide⟩) rfl
    (by decide)
    (DBState.mk [("users", [[("id", 1)]])])
    (DBState.mk [("users", [[("id", 1)]])])
    (DBState.mk [("users", [[("id", 1)], [("id", 2)]])])
    (DBHandle.mk "users" "id" none) (DBHandle.mk "users" "id" none) true
    rfl rfl rfl
  exact h

/-- C10: under the default comparator (integer-valued keys, on which `<`/`>`
is a strict total order), a successful `update` merges into a record whose
key equals the update's own key, so the merge overwrites the key field with
an identical value: the stored record's key-field value is unchanged, the
key sequence of the collection — hence every record's sort position — is
exactly what it was, and the updated slot is the located record merged with
the update. -/
theorem c10_update_preserves_key_and_order (pk : String) (l : List Record)
    (el : Record) (k : Int) (hinv : SortInv pk l) (hwf : WfRecord el)
    (hel : el.lookup pk = some k) (col' : Collection) (n : Nat)
    (hupd : (mkCol pk l).update el = Except.ok (col', true, n)) :
    col'.elements.map (keyD pk) = l.map (keyD pk) ∧
    ∃ j, j < l.length ∧ keyD pk (l.getD j []) = k ∧
      col'.elements = l.set j (assign (l.getD j []) el) ∧
      (assign (l.getD j []) el).lookup pk = (l.getD j []).lookup pk := by
  by_cases hmem : ∃ e ∈ l, keyD pk e = k
  · obtain ⟨j, hupd', hjlen, hkeyj⟩ := update_found hel hinv.1 hinv.2 hmem
    rw [hupd'] at hupd
    have hcol : mkCol pk (l.set j (assign (l.getD j []) el)) = col' :=
      congrArg Prod.fst (Except.ok.inj hupd)
    have hassign : (assign (l.getD j []) el).lookup pk = some k :=
      lookup_assign_of_some hwf hel
    have hold : (l.getD j []).lookup pk = some k :=
      lookup_eq_some_of_keyD (hinv.1 _ (getD_mem hjlen)) hkeyj
    have hkassign : keyD pk (assign (l.getD j []) el) = k := by
      rw [keyD, hassign]
      rfl
    constructor
    · rw [← hcol]
      show (l.set j (assign (l.getD j []) el)).map (keyD pk) = _
      rw [List.map_set]
      refine set_self_of_getElem _ j _ (by simpa using hjlen) ?_
      rw [List.getElem_map, ← List.getD_eq_getElem l [] hjlen, hkassign, hkeyj]
    · exact ⟨j, hjlen, hkeyj, by rw [← hcol], hassign.trans hold.symm⟩
  · push_neg at hmem
    rw [update_not_found hel hinv.1 hinv.2 hmem] at hupd
    have : false = true := congrArg (fun p => p.2.1) (Except.ok.inj hupd)
    exact absurd this (by simp)

/-- C10, witness: updating `{id:2,v:5}` in `[{id:1},{id:2,v:1},{id:3}]`
leaves the key sequence `[1,2,3]` unchanged and merges into slot 1. -/
theorem c10_witness :
    (mkCol "id" [[("id", 1)], [("id", 2), ("v", 5)], [("id", 3)]]).elements.map
        (keyD "id")
      = ([[("id", 1)], [("id", 2), ("v", 1)], [("id", 3)]] : List Record).map
        (keyD "id") ∧
    ∃ j, j < ([[("id", 1)], [("id", 2), ("v", 1)], [("id", 3)]] : List Record).length ∧
      keyD "id" (([[("id", 1)], [("id", 2), ("v", 1)], [("id", 3)]] :
        List Record).getD j []) = 2 ∧
      (mkCol "id" [[("id", 1)], [("id", 2), ("v", 5)], [("id", 3)]]).elements
        = ([[("id", 1)], [("id", 2), ("v", 1)], [("id", 3)]] : List Record).set j
            (assign (([[("id", 1)], [("id", 2), ("v", 1)], [("id", 3)]] :
              List Record).getD j []) [("id", 2), ("v", 5)]) ∧
      (assign (([[("id", 1)], [("id", 2), ("v", 1)], [("id", 3)]] :
          List Record).getD j []) [("id", 2), ("v", 5)]).lookup "id"
        = (([[("id", 1)], [("id", 2), ("v", 1)], [("id", 3)]] :
          List Record).getD j []).lookup "id" := by
  have h := c10_update_preserves_key_and_order "id"
    [[("id", 1)], [("id", 2), ("v", 1)], [("id", 3)]] [("id", 2), ("v", 5)] 2
    (by unfold SortInv Keyed KeysSorted; exact ⟨by decide, by decide⟩)
    (by unfold WfRecord; decide) rfl
    (mkCol "id" [[("id", 1)], [("id", 2), ("v", 5)], [("id", 3)]]) 1 rfl
  exact h

end StrDb
